import Mathlib

/-!
# Verification of `console_budget_calculator.py`

Shallow embedding of the cryptographic core and the listing logic of
`src/console_budget_calculator.py`.

Modelling conventions:
* Python `bytes` values are `List Nat` with every entry `< 256`
  (predicate `IsBytes`); machine bytes carry no other structure here.
* `base64.b64encode` / `base64.b64decode` are modelled byte-for-byte after
  CPython's `binascii` (`b2a_base64` / non-strict `a2b_base64`): invalid
  characters are skipped, a completed padding group ends the scan, unused
  trailing bits are discarded without validation, and a leftover quad
  position at the end of input raises `binascii.Error` (modelled as `none`).
  `b64decode` on a `str` first ASCII-encodes it, so any character `≥ 0x80`
  raises (modelled as `none`).
* `str.encode('utf-8')` / `bytes.decode('utf-8')` are modelled by a strict
  UTF-8 codec (`utf8Encode` / `utf8Decode`): the decoder rejects bad
  continuation bytes, overlong forms, surrogates and values above
  `0x10FFFF`, exactly as CPython's strict UTF-8 codec does.
* The keyed AES-256-GCM object `self.aesgcm = AESGCM(key)` is modelled as an
  abstract authenticated cipher `AEADCipher` together with the laws
  (`AEADLaws`) that AES-GCM under a fixed key satisfies: ciphertexts are
  plaintext-length plus a 16-byte tag, decryption inverts encryption, and
  decryption accepts a blob only if it is literally the encryption of the
  returned plaintext under the presented nonce (for a fixed key GCM
  recomputes the tag deterministically from nonce and ciphertext, so the
  accepted set is exactly the image of encryption).  A raised
  `InvalidTag`/`ValueError` is modelled as `none`.  A small concrete
  instance `toyCipher` satisfying the same laws is used to evaluate the
  embedding on closed inputs.
* `os.urandom(12)` (the fresh nonce) and `AESGCM.generate_key` (the fresh
  key) are modelled as explicit inputs: the random bytes drawn are passed
  to the embedded function as an argument.
-/

/-- A Python `bytes` value: every entry is an actual byte. -/
def IsBytes (l : List Nat) : Prop := ∀ b ∈ l, b < 256

instance : DecidablePred IsBytes := fun l =>
  inferInstanceAs (Decidable (∀ b ∈ l, b < 256))

/-! ## base64 (CPython `binascii`, standard alphabet) -/

/-- The standard base64 alphabet: value `v < 64` to its character. -/
def encodeSextet (v : Nat) : Char :=
  if v < 26 then Char.ofNat (65 + v)        -- 'A'..'Z'
  else if v < 52 then Char.ofNat (71 + v)   -- 'a'..'z'
  else if v < 62 then Char.ofNat (v - 4)    -- '0'..'9'
  else if v = 62 then '+'
  else '/'

/-- Character to its base64 value; `none` for characters outside the
standard alphabet (CPython skips those in non-strict mode). -/
def decodeSextet (c : Char) : Option Nat :=
  let n := c.toNat
  if 65 ≤ n ∧ n ≤ 90 then some (n - 65)
  else if 97 ≤ n ∧ n ≤ 122 then some (n - 71)
  else if 48 ≤ n ∧ n ≤ 57 then some (n + 4)
  else if n = 43 then some 62
  else if n = 47 then some 63
  else none

/-- `base64.b64encode`: bytes to base64 characters, three bytes to four
characters, with `'='` padding on a final group of one or two bytes. -/
def b64encodeBytes : List Nat → List Char
  | [] => []
  | [b1] =>
    [encodeSextet (b1 / 4), encodeSextet (b1 % 4 * 16), '=', '=']
  | [b1, b2] =>
    [encodeSextet (b1 / 4), encodeSextet (b1 % 4 * 16 + b2 / 16),
     encodeSextet (b2 % 16 * 4), '=']
  | b1 :: b2 :: b3 :: rest =>
    encodeSextet (b1 / 4) :: encodeSextet (b1 % 4 * 16 + b2 / 16) ::
    encodeSextet (b2 % 16 * 4 + b3 / 64) :: encodeSextet (b3 % 64) ::
    b64encodeBytes rest

/-- CPython's non-strict `a2b_base64` scanner.  State: `qp` is the position
inside the current 4-character quad, `left` the pending bits of the previous
character, `pads` the padding characters seen in the current quad.
Characters outside the alphabet are skipped; a `'='` at quad position `≥ 2`
that completes the quad ends the scan (the rest of the input is ignored);
input ending at a nonzero quad position is `binascii.Error` (`none`). -/
def a2b : List Char → Nat → Nat → Nat → Option (List Nat)
  | [], 0, _, _ => some []
  | [], _ + 1, _, _ => none
  | c :: cs, qp, left, pads =>
    if c = '=' then
      if 2 ≤ qp then
        if 4 ≤ qp + (pads + 1) then some []
        else a2b cs qp left (pads + 1)
      else a2b cs qp left pads
    else
      match decodeSextet c with
      | none => a2b cs qp left pads
      | some v =>
        match qp with
        | 0 => a2b cs 1 v 0
        | 1 => (a2b cs 2 (v % 16) 0).map (fun bs => (left * 4 + v / 16) :: bs)
        | 2 => (a2b cs 3 (v % 4) 0).map (fun bs => (left * 16 + v / 4) :: bs)
        | _ => (a2b cs 0 0 0).map (fun bs => (left * 64 + v) :: bs)

/-- `base64.b64decode` applied to a `str`: the string is first
ASCII-encoded (a character `≥ 0x80` raises `ValueError`, i.e. `none`),
then scanned by the non-strict `a2b_base64` machine. -/
def b64decodePy (s : String) : Option (List Nat) :=
  if s.data.all (fun c => c.toNat < 128) then a2b s.data 0 0 0 else none

/-- `base64.b64encode(..).decode('utf-8')`: the token string. -/
def b64encodeStr (bs : List Nat) : String :=
  String.mk (b64encodeBytes bs)

/-! ### base64 round-trip -/

theorem decodeSextet_encodeSextet : ∀ v < 64, decodeSextet (encodeSextet v) = some v := by
  decide

theorem encodeSextet_ne_pad : ∀ v < 64, encodeSextet v ≠ '=' := by
  decide

theorem toNat_ofNat_valid (n : Nat) (h : n.isValidChar) :
    (Char.ofNat n).toNat = n := by
  simp [Char.ofNat, h, Char.ofNatAux, Char.toNat, UInt32.toNat]

theorem encodeSextet_ascii (v : Nat) : (encodeSextet v).toNat < 128 := by
  unfold encodeSextet
  split
  · next h =>
    rw [toNat_ofNat_valid (65 + v) (Or.inl (by omega))]; omega
  split
  · next h h2 =>
    rw [toNat_ofNat_valid (71 + v) (Or.inl (by omega))]; omega
  split
  · next h h2 h3 =>
    rw [toNat_ofNat_valid (v - 4) (Or.inl (by omega))]; omega
  split
  · decide
  · decide

theorem a2b_data0 (c : Char) (cs : List Char) (left pads v : Nat)
    (hne : c ≠ '=') (hd : decodeSextet c = some v) :
    a2b (c :: cs) 0 left pads = a2b cs 1 v 0 := by
  simp [a2b, hne, hd]

theorem a2b_data1 (c : Char) (cs : List Char) (left pads v : Nat)
    (hne : c ≠ '=') (hd : decodeSextet c = some v) :
    a2b (c :: cs) 1 left pads
      = (a2b cs 2 (v % 16) 0).map (fun bs => (left * 4 + v / 16) :: bs) := by
  simp [a2b, hne, hd]

theorem a2b_data2 (c : Char) (cs : List Char) (left pads v : Nat)
    (hne : c ≠ '=') (hd : decodeSextet c = some v) :
    a2b (c :: cs) 2 left pads
      = (a2b cs 3 (v % 4) 0).map (fun bs => (left * 16 + v / 4) :: bs) := by
  simp [a2b, hne, hd]

theorem a2b_data3 (c : Char) (cs : List Char) (left pads v : Nat)
    (hne : c ≠ '=') (hd : decodeSextet c = some v) :
    a2b (c :: cs) 3 left pads
      = (a2b cs 0 0 0).map (fun bs => (left * 64 + v) :: bs) := by
  simp [a2b, hne, hd]

theorem a2b_pad_done (cs : List Char) (qp left pads : Nat)
    (h2 : 2 ≤ qp) (h4 : 4 ≤ qp + (pads + 1)) :
    a2b ('=' :: cs) qp left pads = some [] := by
  match qp, h2 with
  | qp + 2, _ => simp [a2b, h4]

theorem a2b_pad_cont (cs : List Char) (qp left pads : Nat)
    (h2 : 2 ≤ qp) (h4 : ¬ 4 ≤ qp + (pads + 1)) :
    a2b ('=' :: cs) qp left pads = a2b cs qp left (pads + 1) := by
  match qp, h2 with
  | qp + 2, _ => simp [a2b, h4]

theorem a2b_quad (s1 s2 s3 s4 : Nat) (h1 : s1 < 64) (h2 : s2 < 64)
    (h3 : s3 < 64) (h4 : s4 < 64) (cs : List Char) :
    a2b (encodeSextet s1 :: encodeSextet s2 :: encodeSextet s3 ::
         encodeSextet s4 :: cs) 0 0 0
      = (a2b cs 0 0 0).map
          (fun bs => (s1 * 4 + s2 / 16) :: (s2 % 16 * 16 + s3 / 4) ::
                     (s3 % 4 * 64 + s4) :: bs) := by
  rw [a2b_data0 _ _ _ _ _ (encodeSextet_ne_pad s1 h1) (decodeSextet_encodeSextet s1 h1)]
  rw [a2b_data1 _ _ _ _ _ (encodeSextet_ne_pad s2 h2) (decodeSextet_encodeSextet s2 h2)]
  rw [a2b_data2 _ _ _ _ _ (encodeSextet_ne_pad s3 h3) (decodeSextet_encodeSextet s3 h3)]
  rw [a2b_data3 _ _ _ _ _ (encodeSextet_ne_pad s4 h4) (decodeSextet_encodeSextet s4 h4)]
  have e2 : s2 % 16 % 16 = s2 % 16 := by omega
  have e3 : s3 % 4 % 4 = s3 % 4 := by omega
  simp only [Option.map_map, e2, e3]
  rfl

theorem a2b_tail1 (s1 s2 : Nat) (h1 : s1 < 64) (h2 : s2 < 64) :
    a2b [encodeSextet s1, encodeSextet s2, '=', '='] 0 0 0
      = some [s1 * 4 + s2 / 16] := by
  rw [a2b_data0 _ _ _ _ _ (encodeSextet_ne_pad s1 h1) (decodeSextet_encodeSextet s1 h1)]
  rw [a2b_data1 _ _ _ _ _ (encodeSextet_ne_pad s2 h2) (decodeSextet_encodeSextet s2 h2)]
  rw [a2b_pad_cont _ _ _ _ (by omega) (by omega)]
  rw [a2b_pad_done _ _ _ _ (by omega) (by omega)]
  rfl

theorem a2b_tail2 (s1 s2 s3 : Nat) (h1 : s1 < 64) (h2 : s2 < 64)
    (h3 : s3 < 64) :
    a2b [encodeSextet s1, encodeSextet s2, encodeSextet s3, '='] 0 0 0
      = some [s1 * 4 + s2 / 16, s2 % 16 * 16 + s3 / 4] := by
  rw [a2b_data0 _ _ _ _ _ (encodeSextet_ne_pad s1 h1) (decodeSextet_encodeSextet s1 h1)]
  rw [a2b_data1 _ _ _ _ _ (encodeSextet_ne_pad s2 h2) (decodeSextet_encodeSextet s2 h2)]
  rw [a2b_data2 _ _ _ _ _ (encodeSextet_ne_pad s3 h3) (decodeSextet_encodeSextet s3 h3)]
  rw [a2b_pad_done _ _ _ _ (by omega) (by omega)]
  have e2 : s2 % 16 % 16 = s2 % 16 := by omega
  simp [e2]

/-- Decoding a canonical base64 encoding recovers the bytes. -/
theorem a2b_b64encodeBytes : ∀ bs : List Nat, IsBytes bs →
    a2b (b64encodeBytes bs) 0 0 0 = some bs
  | [], _ => rfl
  | [b1], h => by
    have hb1 : b1 < 256 := h b1 (by simp)
    rw [b64encodeBytes, a2b_tail1 _ _ (by omega) (by omega)]
    have : b1 / 4 * 4 + b1 % 4 * 16 / 16 = b1 := by omega
    rw [this]
  | [b1, b2], h => by
    have hb1 : b1 < 256 := h b1 (by simp)
    have hb2 : b2 < 256 := h b2 (by simp)
    rw [b64encodeBytes, a2b_tail2 _ _ _ (by omega) (by omega) (by omega)]
    have e1 : b1 / 4 * 4 + (b1 % 4 * 16 + b2 / 16) / 16 = b1 := by omega
    have e2 : (b1 % 4 * 16 + b2 / 16) % 16 * 16 + b2 % 16 * 4 / 4 = b2 := by
      omega
    rw [e1, e2]
  | b1 :: b2 :: b3 :: rest, h => by
    have hb1 : b1 < 256 := h b1 (by simp)
    have hb2 : b2 < 256 := h b2 (by simp)
    have hb3 : b3 < 256 := h b3 (by simp)
    have hrest : IsBytes rest := fun b hb => h b (by simp [hb])
    rw [b64encodeBytes,
        a2b_quad _ _ _ _ (by omega) (by omega) (by omega) (by omega)]
    rw [a2b_b64encodeBytes rest hrest]
    have e1 : b1 / 4 * 4 + (b1 % 4 * 16 + b2 / 16) / 16 = b1 := by omega
    have e2 : (b1 % 4 * 16 + b2 / 16) % 16 * 16 + (b2 % 16 * 4 + b3 / 64) / 4
        = b2 := by omega
    have e3 : (b2 % 16 * 4 + b3 / 64) % 4 * 64 + b3 % 64 = b3 := by omega
    rw [Option.map_some', e1, e2, e3]

theorem b64encodeBytes_ascii : ∀ bs : List Nat, ∀ c ∈ b64encodeBytes bs,
    c.toNat < 128
  | [], _, hc => by simp [b64encodeBytes] at hc
  | [b1], c, hc => by
    simp only [b64encodeBytes, List.mem_cons, List.not_mem_nil, or_false] at hc
    rcases hc with rfl | rfl | rfl | rfl <;>
      first | exact encodeSextet_ascii _ | decide
  | [b1, b2], c, hc => by
    simp only [b64encodeBytes, List.mem_cons, List.not_mem_nil, or_false] at hc
    rcases hc with rfl | rfl | rfl | rfl <;>
      first | exact encodeSextet_ascii _ | decide
  | b1 :: b2 :: b3 :: rest, c, hc => by
    simp only [b64encodeBytes, List.mem_cons] at hc
    rcases hc with rfl | rfl | rfl | rfl | hc
    · exact encodeSextet_ascii _
    · exact encodeSextet_ascii _
    · exact encodeSextet_ascii _
    · exact encodeSextet_ascii _
    · exact b64encodeBytes_ascii rest c hc

/-- Python round-trip: `b64decode(b64encode(bs)) == bs` for genuine bytes. -/
theorem b64decodePy_encode (bs : List Nat) (h : IsBytes bs) :
    b64decodePy (b64encodeStr bs) = some bs := by
  have hall : (String.mk (b64encodeBytes bs)).data.all
      (fun c => c.toNat < 128) = true := by
    rw [List.all_eq_true]
    intro c hc
    exact decide_eq_true (b64encodeBytes_ascii bs c hc)
  rw [b64encodeStr, b64decodePy, if_pos hall]
  exact a2b_b64encodeBytes bs h

/-! ## UTF-8 (strict codec, as CPython's `encode('utf-8')`/`decode('utf-8')`) -/

/-- UTF-8 bytes of one scalar value. -/
def utf8EncodeChar (c : Char) : List Nat :=
  if c.toNat < 128 then [c.toNat]
  else if c.toNat < 2048 then [192 + c.toNat / 64, 128 + c.toNat % 64]
  else if c.toNat < 65536 then
    [224 + c.toNat / 4096, 128 + c.toNat / 64 % 64, 128 + c.toNat % 64]
  else
    [240 + c.toNat / 262144, 128 + c.toNat / 4096 % 64,
     128 + c.toNat / 64 % 64, 128 + c.toNat % 64]

/-- UTF-8 bytes of a character sequence. -/
def utf8EncodeList : List Char → List Nat
  | [] => []
  | c :: cs => utf8EncodeChar c ++ utf8EncodeList cs

/-- `s.encode('utf-8')`. -/
def utf8Encode (s : String) : List Nat := utf8EncodeList s.data

/-- Decode one UTF-8 scalar: lead byte `b0`, remaining bytes `bs`; returns
the scalar value and the bytes left over.  Rejects bad lead bytes, bad
continuation bytes, overlong forms, surrogates (lead `0xED` with second
byte `≥ 0xA0`) and values above `0x10FFFF` (lead `0xF4` with second byte
`≥ 0x90`), as CPython's strict UTF-8 codec does. -/
def utf8DecodeOne (b0 : Nat) (bs : List Nat) : Option (Nat × List Nat) :=
  if b0 < 128 then some (b0, bs)
  else if b0 < 194 then none
  else if b0 < 224 then
    match bs with
    | b1 :: bs2 =>
      if 128 ≤ b1 ∧ b1 < 192 then
        some ((b0 - 192) * 64 + (b1 - 128), bs2)
      else none
    | [] => none
  else if b0 < 240 then
    match bs with
    | b1 :: b2 :: bs3 =>
      if (128 ≤ b1 ∧ b1 < 192) ∧ (128 ≤ b2 ∧ b2 < 192) ∧
         (b0 = 224 → 160 ≤ b1) ∧ (b0 = 237 → b1 < 160) then
        some ((b0 - 224) * 4096 + (b1 - 128) * 64 + (b2 - 128), bs3)
      else none
    | _ => none
  else if b0 < 245 then
    match bs with
    | b1 :: b2 :: b3 :: bs4 =>
      if (128 ≤ b1 ∧ b1 < 192) ∧ (128 ≤ b2 ∧ b2 < 192) ∧
         (128 ≤ b3 ∧ b3 < 192) ∧
         (b0 = 240 → 144 ≤ b1) ∧ (b0 = 244 → b1 < 144) then
        some ((b0 - 240) * 262144 + (b1 - 128) * 4096 +
              (b2 - 128) * 64 + (b3 - 128), bs4)
      else none
    | _ => none
  else none

theorem utf8DecodeOne_length (b0 : Nat) (bs : List Nat) (n : Nat)
    (rest : List Nat) (h : utf8DecodeOne b0 bs = some (n, rest)) :
    rest.length ≤ bs.length := by
  unfold utf8DecodeOne at h
  repeat' split at h
  all_goals try exact Option.noConfusion h
  all_goals
    injection h with h'
    injection h' with h1 h2
    subst h2
    try simp only [List.length_cons]
    omega

/-- Fuelled strict UTF-8 decoder: each step consumes at least one byte, so
fuel `l.length` always suffices (`utf8DecodeGo_fuel`). -/
def utf8DecodeGo : Nat → List Nat → Option (List Char)
  | _, [] => some []
  | 0, _ :: _ => none
  | fuel + 1, b0 :: bs =>
    match utf8DecodeOne b0 bs with
    | none => none
    | some (n, rest) =>
      (utf8DecodeGo fuel rest).map (fun cs => Char.ofNat n :: cs)

/-- Strict UTF-8 decoder over byte lists (CPython `bytes.decode('utf-8')`;
a rejection raises `UnicodeDecodeError`, modelled as `none`). -/
def utf8DecodeList (l : List Nat) : Option (List Char) :=
  utf8DecodeGo l.length l

theorem utf8DecodeGo_nil (f : Nat) : utf8DecodeGo f [] = some [] := by
  cases f <;> rfl

theorem utf8DecodeGo_fuel : ∀ f1 f2 : Nat, ∀ l : List Nat,
    l.length ≤ f1 → l.length ≤ f2 → utf8DecodeGo f1 l = utf8DecodeGo f2 l
  | f1, f2, [], _, _ => by rw [utf8DecodeGo_nil, utf8DecodeGo_nil]
  | f1 + 1, f2 + 1, b0 :: bs, h1, h2 => by
    rw [utf8DecodeGo, utf8DecodeGo]
    cases hone : utf8DecodeOne b0 bs with
    | none => rfl
    | some p =>
      obtain ⟨n, rest⟩ := p
      have hr := utf8DecodeOne_length b0 bs n rest hone
      have hl : bs.length + 1 ≤ f1 + 1 := by simpa using h1
      have hl2 : bs.length + 1 ≤ f2 + 1 := by simpa using h2
      have he : utf8DecodeGo f1 rest = utf8DecodeGo f2 rest :=
        utf8DecodeGo_fuel f1 f2 rest (by omega) (by omega)
      simp only [he]

/-- `bytes.decode('utf-8')`. -/
def utf8Decode (bs : List Nat) : Option String :=
  (utf8DecodeList bs).map String.mk

theorem utf8EncodeChar_isBytes (c : Char) : ∀ b ∈ utf8EncodeChar c, b < 256 := by
  have hv : c.toNat.isValidChar := c.valid
  have hlt : c.toNat < 1114112 := by
    rcases hv with h | ⟨_, h⟩ <;> omega
  intro b hb
  unfold utf8EncodeChar at hb
  split at hb
  · simp at hb; omega
  split at hb
  · simp at hb; rcases hb with rfl | rfl <;> omega
  split at hb
  · simp at hb; rcases hb with rfl | rfl | rfl <;> omega
  · simp at hb; rcases hb with rfl | rfl | rfl | rfl <;> omega

theorem utf8EncodeList_isBytes (cs : List Char) : IsBytes (utf8EncodeList cs) := by
  induction cs with
  | nil => intro b hb; simp [utf8EncodeList] at hb
  | cons c cs ih =>
    intro b hb
    rw [utf8EncodeList] at hb
    rcases List.mem_append.mp hb with h | h
    · exact utf8EncodeChar_isBytes c b h
    · exact ih b h

theorem utf8Encode_isBytes (s : String) : IsBytes (utf8Encode s) :=
  utf8EncodeList_isBytes s.data

theorem utf8DecodeList_cons_some (b0 : Nat) (bs : List Nat) (n : Nat)
    (rest : List Nat) (h : utf8DecodeOne b0 bs = some (n, rest)) :
    utf8DecodeList (b0 :: bs)
      = (utf8DecodeList rest).map (fun cs => Char.ofNat n :: cs) := by
  have hr := utf8DecodeOne_length b0 bs n rest h
  rw [utf8DecodeList, List.length_cons, utf8DecodeGo, h]
  simp only [utf8DecodeGo_fuel bs.length rest.length rest (by omega)
    (by omega)]
  rfl

theorem utf8DecodeList_cons_none (b0 : Nat) (bs : List Nat)
    (h : utf8DecodeOne b0 bs = none) :
    utf8DecodeList (b0 :: bs) = none := by
  rw [utf8DecodeList, List.length_cons, utf8DecodeGo, h]

theorem utf8DecodeList_nil : utf8DecodeList [] = some [] := rfl

/-- Decoding one scalar from the UTF-8 bytes of `c` followed by anything
recovers `c.toNat` and the leftover. -/
theorem utf8DecodeOne_encodeChar (c : Char) (rest : List Nat) :
    ∃ b0 tail, utf8EncodeChar c ++ rest = b0 :: tail ∧
      utf8DecodeOne b0 tail = some (c.toNat, rest) := by
  have hsur : c.toNat < 55296 ∨ (57343 < c.toNat ∧ c.toNat < 1114112) := c.valid
  have hlt : c.toNat < 1114112 := by rcases hsur with h | ⟨_, h⟩ <;> omega
  by_cases h1 : c.toNat < 128
  · refine ⟨c.toNat, rest, ?_, ?_⟩
    · rw [utf8EncodeChar, if_pos h1, List.cons_append, List.nil_append]
    · unfold utf8DecodeOne
      rw [if_pos h1]
  · by_cases h2 : c.toNat < 2048
    · refine ⟨192 + c.toNat / 64, (128 + c.toNat % 64) :: rest, ?_, ?_⟩
      · rw [utf8EncodeChar, if_neg h1, if_pos h2, List.cons_append,
            List.cons_append, List.nil_append]
      · unfold utf8DecodeOne
        rw [if_neg (by omega), if_neg (by omega), if_pos (by omega)]
        simp only [if_pos (show 128 ≤ 128 + c.toNat % 64 ∧ 128 + c.toNat % 64 < 192
          by omega)]
        have : (192 + c.toNat / 64 - 192) * 64 + (128 + c.toNat % 64 - 128)
            = c.toNat := by omega
        rw [this]
    · by_cases h3 : c.toNat < 65536
      · refine ⟨224 + c.toNat / 4096,
          (128 + c.toNat / 64 % 64) :: (128 + c.toNat % 64) :: rest, ?_, ?_⟩
        · rw [utf8EncodeChar, if_neg h1, if_neg h2, if_pos h3,
              List.cons_append, List.cons_append, List.cons_append,
              List.nil_append]
        · unfold utf8DecodeOne
          rw [if_neg (by omega), if_neg (by omega), if_neg (by omega),
              if_pos (by omega)]
          have hg : (128 ≤ 128 + c.toNat / 64 % 64 ∧ 128 + c.toNat / 64 % 64 < 192) ∧
              (128 ≤ 128 + c.toNat % 64 ∧ 128 + c.toNat % 64 < 192) ∧
              (224 + c.toNat / 4096 = 224 → 160 ≤ 128 + c.toNat / 64 % 64) ∧
              (224 + c.toNat / 4096 = 237 → 128 + c.toNat / 64 % 64 < 160) := by
            refine ⟨⟨by omega, by omega⟩, ⟨by omega, by omega⟩, ?_, ?_⟩
            · intro he; omega
            · intro he
              -- lead byte 237 puts the value in 0xD000..0xDFFF; scalar
              -- validity excludes the surrogate half 0xD800..0xDFFF
              rcases hsur with h | ⟨h, _⟩ <;> omega
          simp only [if_pos hg]
          have : (224 + c.toNat / 4096 - 224) * 4096 +
                 (128 + c.toNat / 64 % 64 - 128) * 64 +
                 (128 + c.toNat % 64 - 128) = c.toNat := by omega
          rw [this]
      · refine ⟨240 + c.toNat / 262144,
          (128 + c.toNat / 4096 % 64) :: (128 + c.toNat / 64 % 64) ::
          (128 + c.toNat % 64) :: rest, ?_, ?_⟩
        · rw [utf8EncodeChar, if_neg h1, if_neg h2, if_neg h3,
              List.cons_append, List.cons_append, List.cons_append,
              List.cons_append, List.nil_append]
        · unfold utf8DecodeOne
          rw [if_neg (by omega), if_neg (by omega), if_neg (by omega),
              if_neg (by omega), if_pos (by omega)]
          have hg : (128 ≤ 128 + c.toNat / 4096 % 64 ∧
                     128 + c.toNat / 4096 % 64 < 192) ∧
              (128 ≤ 128 + c.toNat / 64 % 64 ∧ 128 + c.toNat / 64 % 64 < 192) ∧
              (128 ≤ 128 + c.toNat % 64 ∧ 128 + c.toNat % 64 < 192) ∧
              (240 + c.toNat / 262144 = 240 → 144 ≤ 128 + c.toNat / 4096 % 64) ∧
              (240 + c.toNat / 262144 = 244 → 128 + c.toNat / 4096 % 64 < 144) := by
            refine ⟨⟨by omega, by omega⟩, ⟨by omega, by omega⟩,
                    ⟨by omega, by omega⟩, ?_, ?_⟩
            · intro he; omega
            · intro he; omega
          simp only [if_pos hg]
          have : (240 + c.toNat / 262144 - 240) * 262144 +
                 (128 + c.toNat / 4096 % 64 - 128) * 4096 +
                 (128 + c.toNat / 64 % 64 - 128) * 64 +
                 (128 + c.toNat % 64 - 128) = c.toNat := by omega
          rw [this]

/-- One-character step of the UTF-8 round-trip. -/
theorem utf8DecodeList_encodeChar (c : Char) (rest : List Nat) :
    utf8DecodeList (utf8EncodeChar c ++ rest)
      = (utf8DecodeList rest).map (fun cs => c :: cs) := by
  obtain ⟨b0, tail, heq, hone⟩ := utf8DecodeOne_encodeChar c rest
  rw [heq, utf8DecodeList_cons_some _ _ _ _ hone, Char.ofNat_toNat]

theorem utf8DecodeList_encodeList : ∀ cs : List Char,
    utf8DecodeList (utf8EncodeList cs) = some cs
  | [] => utf8DecodeList_nil
  | c :: cs => by
    rw [utf8EncodeList, utf8DecodeList_encodeChar,
        utf8DecodeList_encodeList cs]
    rfl

/-- Python round-trip: `encode('utf-8')` then `decode('utf-8')` is the
identity on strings. -/
theorem utf8Decode_encode (s : String) : utf8Decode (utf8Encode s) = some s := by
  rw [utf8Decode, utf8Encode, utf8DecodeList_encodeList]
  rfl

/-! ## The AEAD cipher (`self.aesgcm = AESGCM(key)`)

`AESGCM` under a fixed key is modelled as an abstract cipher together with
the laws it satisfies.  `decB n c = none` models a raised
`InvalidTag`/`ValueError` inside `AESGCM.decrypt`.  For a fixed key, GCM
decryption recomputes the authentication tag deterministically from nonce
and ciphertext, so it accepts `c` exactly when `c` is literally
`AESGCM.encrypt(n, d)` for the plaintext `d` it returns (`dec_enc` and
`dec_sound`); a ciphertext shorter than the 16-byte tag is always rejected
(`dec_short`). -/

structure AEADCipher where
  encB : List Nat → List Nat → List Nat
  decB : List Nat → List Nat → Option (List Nat)

structure AEADLaws (A : AEADCipher) : Prop where
  enc_len : ∀ n d, n.length = 12 → (A.encB n d).length = d.length + 16
  enc_bytes : ∀ n d, IsBytes n → IsBytes d → IsBytes (A.encB n d)
  dec_enc : ∀ n d, n.length = 12 → IsBytes d → A.decB n (A.encB n d) = some d
  dec_sound : ∀ n c d, n.length = 12 → A.decB n c = some d → c = A.encB n d
  dec_short : ∀ n c, c.length < 16 → A.decB n c = none

/-! ## `CryptoManager.encrypt` / `CryptoManager.decrypt`

The fresh nonce `os.urandom(12)` is passed as the explicit argument
`nonce`. -/

namespace CryptoManager

/-- The sentinel string the source returns from the `except` clause. -/
def decErrorMsg : String := "[Decryption Error]"

/-- `encrypt`: `base64.b64encode(nonce + aesgcm.encrypt(nonce, plaintext.encode('utf-8'), None)).decode('utf-8')`. -/
def encrypt (A : AEADCipher) (nonce : List Nat) (plaintext : String) : String :=
  b64encodeStr (nonce ++ A.encB nonce (utf8Encode plaintext))

/-- The `try` body of `decrypt`: b64-decode the token, split the first 12
bytes off as the nonce, authenticated-decrypt the remainder, UTF-8-decode
the result.  Every failing step of the Python body raises, modelled as
`none`. -/
def decryptRaw (A : AEADCipher) (token : String) : Option String :=
  match b64decodePy token with
  | none => none
  | some blob =>
    match A.decB (blob.take 12) (blob.drop 12) with
    | none => none
    | some data => utf8Decode data

/-- `decrypt`: the `try` body, with `except Exception` turning any raise
into the value `"[Decryption Error]"` returned on the ordinary channel. -/
def decrypt (A : AEADCipher) (token : String) : String :=
  (decryptRaw A token).getD decErrorMsg

theorem decryptRaw_encrypt (A : AEADCipher) (hA : AEADLaws A)
    (nonce : List Nat) (h12 : nonce.length = 12) (hnb : IsBytes nonce)
    (s : String) :
    decryptRaw A (encrypt A nonce s) = some s := by
  have hblob : IsBytes (nonce ++ A.encB nonce (utf8Encode s)) := by
    intro b hb
    rcases List.mem_append.mp hb with h | h
    · exact hnb b h
    · exact hA.enc_bytes nonce _ hnb (utf8Encode_isBytes s) b h
  have ht : (nonce ++ A.encB nonce (utf8Encode s)).take 12 = nonce := by
    rw [← h12]
    exact List.take_left _ _
  have hd : (nonce ++ A.encB nonce (utf8Encode s)).drop 12
      = A.encB nonce (utf8Encode s) := by
    rw [← h12]
    exact List.drop_left _ _
  rw [encrypt, decryptRaw, b64decodePy_encode _ hblob]
  simp only [ht, hd, hA.dec_enc _ _ h12 (utf8Encode_isBytes s),
             utf8Decode_encode]

theorem decrypt_encrypt (A : AEADCipher) (hA : AEADLaws A)
    (nonce : List Nat) (h12 : nonce.length = 12) (hnb : IsBytes nonce)
    (s : String) :
    decrypt A (encrypt A nonce s) = s := by
  rw [decrypt, decryptRaw_encrypt A hA nonce h12 hnb s]
  rfl

theorem decrypt_of_raw_none (A : AEADCipher) (token : String)
    (h : decryptRaw A token = none) : decrypt A token = decErrorMsg := by
  rw [decrypt, h]
  rfl

end CryptoManager

/-! ## A concrete cipher instance satisfying `AEADLaws`

Used to evaluate the embedding on closed inputs.  `encB` shifts every
byte by 7 and appends a 16-byte tag that is a deterministic checksum of
nonce and plaintext; `decB` accepts exactly the image of `encB`. -/

def toyTag (n d : List Nat) : Nat := (n.sum + d.sum + d.length) % 256

def toyShift (d : List Nat) : List Nat := d.map fun b => (b + 7) % 256

def toyUnshift (d : List Nat) : List Nat := d.map fun b => (b + 249) % 256

def toyCipher : AEADCipher where
  encB n d := toyShift d ++ List.replicate 16 (toyTag n d)
  decB n c :=
    if 16 ≤ c.length ∧ IsBytes c then
      if c.drop (c.length - 16)
          = List.replicate 16 (toyTag n (toyUnshift (c.take (c.length - 16))))
      then some (toyUnshift (c.take (c.length - 16)))
      else none
    else none

theorem toyUnshift_shift (d : List Nat) (h : IsBytes d) :
    toyUnshift (toyShift d) = d := by
  rw [toyShift, toyUnshift, List.map_map]
  conv_rhs => rw [← List.map_id d]
  apply List.map_congr_left
  intro b hb
  have := h b hb
  simp only [Function.comp_apply, id_eq]
  omega

theorem toyShift_unshift (c : List Nat) (h : IsBytes c) :
    toyShift (toyUnshift c) = c := by
  rw [toyShift, toyUnshift, List.map_map]
  conv_rhs => rw [← List.map_id c]
  apply List.map_congr_left
  intro b hb
  have := h b hb
  simp only [Function.comp_apply, id_eq]
  omega

theorem toyShift_isBytes (d : List Nat) : IsBytes (toyShift d) := by
  intro b hb
  rw [toyShift] at hb
  obtain ⟨a, _, rfl⟩ := List.mem_map.mp hb
  omega

theorem toyLaws : AEADLaws toyCipher := by
  constructor
  · intro n d _
    simp [toyCipher, toyShift]
  · intro n d _ _ b hb
    rcases List.mem_append.mp hb with h | h
    · exact toyShift_isBytes d b h
    · rw [List.eq_of_mem_replicate h, toyTag]
      omega
  · intro n d _ hd
    have hlen : (toyShift d ++ List.replicate 16 (toyTag n d)).length
        = d.length + 16 := by simp [toyShift]
    have hbytes : IsBytes (toyShift d ++ List.replicate 16 (toyTag n d)) := by
      intro b hb
      rcases List.mem_append.mp hb with h | h
      · exact toyShift_isBytes d b h
      · rw [List.eq_of_mem_replicate h, toyTag]; omega
    have htake : (toyShift d ++ List.replicate 16 (toyTag n d)).take
        ((toyShift d ++ List.replicate 16 (toyTag n d)).length - 16)
        = toyShift d := by
      rw [hlen]
      have : d.length + 16 - 16 = (toyShift d).length := by simp [toyShift]
      rw [this]
      exact List.take_left _ _
    have hdrop : (toyShift d ++ List.replicate 16 (toyTag n d)).drop
        ((toyShift d ++ List.replicate 16 (toyTag n d)).length - 16)
        = List.replicate 16 (toyTag n d) := by
      rw [hlen]
      have : d.length + 16 - 16 = (toyShift d).length := by simp [toyShift]
      rw [this]
      exact List.drop_left _ _
    show toyCipher.decB n (toyShift d ++ List.replicate 16 (toyTag n d)) = some d
    rw [show toyCipher.decB = fun n c =>
      if 16 ≤ c.length ∧ IsBytes c then
        if c.drop (c.length - 16)
            = List.replicate 16 (toyTag n (toyUnshift (c.take (c.length - 16))))
        then some (toyUnshift (c.take (c.length - 16)))
        else none
      else none from rfl]
    simp only
    have hcond : 16 ≤ (toyShift d ++ List.replicate 16 (toyTag n d)).length ∧
        IsBytes (toyShift d ++ List.replicate 16 (toyTag n d)) :=
      ⟨by omega, hbytes⟩
    rw [if_pos hcond]
    rw [htake, hdrop, toyUnshift_shift d hd, if_pos rfl]
  · intro n c d h12 h
    show c = toyShift d ++ List.replicate 16 (toyTag n d)
    rw [show toyCipher.decB = fun n c =>
      if 16 ≤ c.length ∧ IsBytes c then
        if c.drop (c.length - 16)
            = List.replicate 16 (toyTag n (toyUnshift (c.take (c.length - 16))))
        then some (toyUnshift (c.take (c.length - 16)))
        else none
      else none from rfl] at h
    simp only at h
    split at h
    · next hok =>
      split at h
      · next htag =>
        injection h with h'
        have hbody : IsBytes (c.take (c.length - 16)) := by
          intro b hb
          exact hok.2 b (List.mem_of_mem_take hb)
        rw [← h', toyShift_unshift _ hbody, ← htag]
        exact (List.take_append_drop _ c).symm
      · exact Option.noConfusion h
    · exact Option.noConfusion h
  · intro n c hlt
    show toyCipher.decB n c = none
    rw [show toyCipher.decB = fun n c =>
      if 16 ≤ c.length ∧ IsBytes c then
        if c.drop (c.length - 16)
            = List.replicate 16 (toyTag n (toyUnshift (c.take (c.length - 16))))
        then some (toyUnshift (c.take (c.length - 16)))
        else none
      else none from rfl]
    simp only
    rw [if_neg (by omega)]

/-! ## `CryptoManager._load_or_generate_key` and `__init__`

The key file is modelled as an abstract durable location: contents (if the
file exists) plus two health flags saying whether reading resp. writing
the location succeeds.  `AESGCM.generate_key(bit_length=256)` is modelled
as the explicit argument `freshKey` (the 32 random bytes drawn).  The
source catches no exceptions here: a failing `open`/`read`/`write` lets
`OSError` escape, and `AESGCM(key)` in `__init__` raises `ValueError`
for a key that is not 128/192/256 bits long. -/

structure KeyFS where
  keyFile : Option (List Nat)
  readOk : Bool
  writeOk : Bool
deriving DecidableEq

inductive PyErr where
  | osError
  | valueError
deriving DecidableEq

/-- `_load_or_generate_key`: if the key file exists, read and return its
bytes (whatever they are — no validation); otherwise generate a key,
write it, and return it.  Returns the key and the resulting file-system
state; an I/O failure propagates as an uncaught `OSError`. -/
def loadOrGenerateKey (fs : KeyFS) (freshKey : List Nat) :
    Except PyErr (List Nat × KeyFS) :=
  match fs.keyFile with
  | some k => if fs.readOk then .ok (k, fs) else .error .osError
  | none =>
    if fs.writeOk then .ok (freshKey, { fs with keyFile := some freshKey })
    else .error .osError

/-- `CryptoManager.__init__`: `self.key = self._load_or_generate_key()`
followed by `self.aesgcm = AESGCM(self.key)`; the `AESGCM` constructor
raises `ValueError` unless the key is 128, 192 or 256 bits. -/
def cryptoManagerInit (fs : KeyFS) (freshKey : List Nat) :
    Except PyErr (List Nat × KeyFS) :=
  match loadOrGenerateKey fs freshKey with
  | .error e => .error e
  | .ok (k, fs2) =>
    if k.length = 16 ∨ k.length = 24 ∨ k.length = 32 then .ok (k, fs2)
    else .error .valueError

/-! ## The listing loop of `manage_single_budget` (lines 208–227)

For each stored item `(item_id, desc_enc, amt_enc)` the loop decrypts both
fields, tries `float(dec_amt_str)`, prints the row with the parsed amount
and adds it to the running total on success, and prints an `Error` marker
row (keeping the total unchanged) when `float` raises `ValueError`.

Python's `float` accumulates in IEEE-754 binary64; the model computes the
exact rational value instead, so theorems about the total speak about the
exact sum of the parsed amounts.  `pyFloat` covers the grammar relevant
here — optional ASCII whitespace, sign, decimal digits with at most one
point, optional exponent; the `inf`/`nan` words (not representable in `ℚ`)
and underscore digit grouping are outside the model. -/

def isPySpace (c : Char) : Bool :=
  c = ' ' ∨ c = '\t' ∨ c = '\n' ∨ c = '\x0d' ∨ c = '\x0b' ∨ c = '\x0c'

def isDigit (c : Char) : Bool := 48 ≤ c.toNat ∧ c.toNat ≤ 57

def digitsToNat (l : List Char) : Nat :=
  l.foldl (fun a c => a * 10 + (c.toNat - 48)) 0

/-- Parse the mantissa `digits[.digits]` (at least one digit in total);
returns its exact value and the unconsumed remainder. -/
def parseMant (l : List Char) : Option (ℚ × List Char) :=
  match l.dropWhile isDigit with
  | '.' :: t =>
    if (l.takeWhile isDigit).length + (t.takeWhile isDigit).length = 0 then
      none
    else
      some ((digitsToNat (l.takeWhile isDigit) : ℚ) +
            (digitsToNat (t.takeWhile isDigit) : ℚ) /
              10 ^ (t.takeWhile isDigit).length,
            t.dropWhile isDigit)
  | r =>
    if (l.takeWhile isDigit).length = 0 then none
    else some ((digitsToNat (l.takeWhile isDigit) : ℚ), r)

/-- Parse the optional exponent part (the whole remainder must be it). -/
def parseExpPart : List Char → Option ℤ
  | [] => some 0
  | e :: t =>
    if e = 'e' ∨ e = 'E' then
      match t with
      | '+' :: d =>
        if d.length ≠ 0 ∧ d.all isDigit then some (digitsToNat d) else none
      | '-' :: d =>
        if d.length ≠ 0 ∧ d.all isDigit then some (-(digitsToNat d : ℤ)) else none
      | d =>
        if d.length ≠ 0 ∧ d.all isDigit then some (digitsToNat d) else none
    else none

/-- Python `float(s)`: `none` models a raised `ValueError`. -/
def pyFloat (s : String) : Option ℚ :=
  let l1 := s.data.dropWhile isPySpace
  let l2 := (l1.reverse.dropWhile isPySpace).reverse
  let signAndRest : ℚ × List Char :=
    match l2 with
    | '-' :: t => (-1, t)
    | '+' :: t => (1, t)
    | t => (1, t)
  match parseMant signAndRest.2 with
  | none => none
  | some (m, r) =>
    match parseExpPart r with
    | none => none
    | some ex => some (signAndRest.1 * m * (10 : ℚ) ^ ex)

/-- One printed row of the listing: either a displayed item (parsed
amount included in the total) or the `Error` marker row. -/
inductive RowOut where
  | display (itemId : Nat) (desc : String) (amt : ℚ)
  | errorRow (itemId : Nat) (desc : String)
deriving DecidableEq

/-- The loop body for one item row. -/
def renderItem (A : AEADCipher) (item : Nat × String × String) : RowOut × ℚ :=
  match pyFloat (CryptoManager.decrypt A item.2.2) with
  | some a => (RowOut.display item.1 (CryptoManager.decrypt A item.2.1) a, a)
  | none => (RowOut.errorRow item.1 (CryptoManager.decrypt A item.2.1), 0)

/-- The whole listing pass: the printed rows in order and the final total
(the exact sum of the amounts of the displayed rows). -/
def listItems (A : AEADCipher) : List (Nat × String × String) → List RowOut × ℚ
  | [] => ([], 0)
  | item :: rest =>
    ((renderItem A item).1 :: (listItems A rest).1,
     (renderItem A item).2 + (listItems A rest).2)

theorem listItems_cons (A : AEADCipher) (item : Nat × String × String)
    (rest : List (Nat × String × String)) :
    listItems A (item :: rest)
      = ((renderItem A item).1 :: (listItems A rest).1,
         (renderItem A item).2 + (listItems A rest).2) := rfl

theorem listItems_append (A : AEADCipher)
    (xs ys : List (Nat × String × String)) :
    listItems A (xs ++ ys)
      = ((listItems A xs).1 ++ (listItems A ys).1,
         (listItems A xs).2 + (listItems A ys).2) := by
  induction xs with
  | nil => simp [listItems]
  | cons x xs ih =>
    rw [List.cons_append, listItems_cons, ih, listItems_cons]
    simp only [Prod.mk.injEq, List.cons_append, true_and]
    ring

/-! ## Single-byte modifications of tokens -/

/-- `t` differs from `s` in exactly one (character) position: same length,
one index disagrees, all others agree. -/
def oneCharDiff (s t : String) : Prop :=
  s.data.length = t.data.length ∧
  ∃ i < s.data.length, s.data[i]? ≠ t.data[i]? ∧
    ∀ j < s.data.length, j ≠ i → s.data[j]? = t.data[j]?

instance (s t : String) : Decidable (oneCharDiff s t) := by
  unfold oneCharDiff
  infer_instance

theorem oneCharDiff_of_mid (p s : List Char) (x y : Char) (hxy : x ≠ y) :
    oneCharDiff (String.mk (p ++ x :: s)) (String.mk (p ++ y :: s)) := by
  refine ⟨by simp, p.length,
    by simp only [List.length_append, List.length_cons]; omega, ?_, ?_⟩
  · rw [List.getElem?_append_right (Nat.le_refl _),
        List.getElem?_append_right (Nat.le_refl _)]
    simp [hxy]
  · intro j hj hne
    rcases Nat.lt_or_ge j p.length with h | h
    · rw [List.getElem?_append_left h, List.getElem?_append_left h]
    · have : p.length < j := by omega
      rw [List.getElem?_append_right h, List.getElem?_append_right h]
      obtain ⟨m, hm⟩ : ∃ m, j - p.length = m + 1 := ⟨j - p.length - 1, by omega⟩
      rw [hm, List.getElem?_cons_succ, List.getElem?_cons_succ]

theorem ne_of_oneCharDiff (s t : String) (h : oneCharDiff s t) : t ≠ s := by
  obtain ⟨hlen, i, hi, hne, _⟩ := h
  intro heq
  rw [heq] at hne
  exact hne rfl

theorem encodeSextet_ne (v w : Nat) (hv : v < 64) (hw : w < 64) (hne : v ≠ w) :
    encodeSextet v ≠ encodeSextet w := by
  intro h
  have h1 := decodeSextet_encodeSextet v hv
  have h2 := decodeSextet_encodeSextet w hw
  rw [h] at h1
  rw [h1] at h2
  exact hne (Option.some.inj h2)

/-- Appending one byte to a group of whole 3-byte blocks appends one
padded quad to the encoding. -/
theorem b64encodeBytes_concat : ∀ g : List Nat, ∀ b : Nat, g.length % 3 = 0 →
    b64encodeBytes (g ++ [b])
      = b64encodeBytes g ++
        [encodeSextet (b / 4), encodeSextet (b % 4 * 16), '=', '=']
  | [], b, _ => rfl
  | [x], b, hg => by simp at hg
  | [x, y], b, hg => by simp at hg
  | x :: y :: z :: rest, b, hg => by
    have hrest : rest.length % 3 = 0 := by
      simp [List.length_cons] at hg
      omega
    rw [List.cons_append, List.cons_append, List.cons_append,
        b64encodeBytes, b64encodeBytes_concat rest b hrest, b64encodeBytes]
    simp

/-- Decoding whole 3-byte blocks followed by anything: the blocks come
off first. -/
theorem a2b_encode_blocks : ∀ g : List Nat, IsBytes g → g.length % 3 = 0 →
    ∀ suffix : List Char,
    a2b (b64encodeBytes g ++ suffix) 0 0 0
      = (a2b suffix 0 0 0).map (fun bs => g ++ bs)
  | [], _, _, suffix => by
    cases h : a2b suffix 0 0 0 <;> simp [b64encodeBytes, h]
  | [x], _, hg, _ => by simp at hg
  | [x, y], _, hg, _ => by simp at hg
  | x :: y :: z :: rest, h, hg, suffix => by
    have hx : x < 256 := h x (by simp)
    have hy : y < 256 := h y (by simp)
    have hz : z < 256 := h z (by simp)
    have hrest : IsBytes rest := fun b hb => h b (by simp [hb])
    have hg' : rest.length % 3 = 0 := by
      simp [List.length_cons] at hg
      omega
    rw [b64encodeBytes, List.cons_append, List.cons_append, List.cons_append,
        List.cons_append,
        a2b_quad _ _ _ _ (by omega) (by omega) (by omega) (by omega),
        a2b_encode_blocks rest hrest hg' suffix]
    have e1 : x / 4 * 4 + (x % 4 * 16 + y / 16) / 16 = x := by omega
    have e2 : (x % 4 * 16 + y / 16) % 16 * 16 + (y % 16 * 4 + z / 64) / 4
        = y := by omega
    have e3 : (y % 16 * 4 + z / 64) % 4 * 64 + z % 64 = z := by omega
    cases hs : a2b suffix 0 0 0 <;> simp [hs, e1, e2, e3]

/-- For every cipher satisfying the AEAD laws and every 12-byte nonce,
the token of the empty plaintext admits a one-character modification that
still decrypts — base64 does not validate the unused trailing bits of the
final quad, so the modified token decodes to the identical byte blob. -/
theorem flip_still_decrypts (A : AEADCipher) (hA : AEADLaws A)
    (nonce : List Nat) (h12 : nonce.length = 12) (hnb : IsBytes nonce) :
    ∃ t' : String, oneCharDiff (CryptoManager.encrypt A nonce "") t' ∧
      t' ≠ CryptoManager.encrypt A nonce "" ∧
      CryptoManager.decrypt A t' = "" := by
  have hs0 : utf8Encode "" = [] := rfl
  set ct := A.encB nonce [] with hct
  have hctlen : ct.length = 16 := by
    rw [hct, hA.enc_len nonce [] h12]
    rfl
  have hblob : IsBytes (nonce ++ ct) := by
    intro b hb
    rcases List.mem_append.mp hb with h | h
    · exact hnb b h
    · exact hA.enc_bytes nonce [] hnb (by intro b hb; simp at hb) b h
  have hlen : (nonce ++ ct).length = 28 := by
    simp [h12, hctlen]
  have hne : nonce ++ ct ≠ [] := by
    intro h
    rw [h] at hlen
    simp at hlen
  -- split the last byte off the blob
  set g := (nonce ++ ct).dropLast with hgdef
  set b := (nonce ++ ct).getLast hne with hbdef
  have hsplit : g ++ [b] = nonce ++ ct := List.dropLast_concat_getLast hne
  have hglen : g.length = 27 := by
    rw [hgdef, List.length_dropLast, hlen]
  have hgb : IsBytes g := by
    intro v hv
    exact hblob v (by rw [← hsplit]; exact List.mem_append_left _ hv)
  have hbb : b < 256 := hblob b (by rw [← hsplit]; simp)
  have hg3 : g.length % 3 = 0 := by rw [hglen]
  -- the canonical token and its modification at index 37
  have htok : CryptoManager.encrypt A nonce ""
      = String.mk (b64encodeBytes g ++
          [encodeSextet (b / 4), encodeSextet (b % 4 * 16), '=', '=']) := by
    rw [CryptoManager.encrypt, hs0, b64encodeStr, ← hct, ← hsplit,
        b64encodeBytes_concat g b hg3]
  refine ⟨String.mk (b64encodeBytes g ++
      [encodeSextet (b / 4), encodeSextet (b % 4 * 16 + 1), '=', '=']), ?_, ?_, ?_⟩
  · rw [htok]
    have : [encodeSextet (b / 4), encodeSextet (b % 4 * 16), '=', '=']
        = encodeSextet (b / 4) :: encodeSextet (b % 4 * 16) :: ['=', '='] := rfl
    rw [this]
    have : [encodeSextet (b / 4), encodeSextet (b % 4 * 16 + 1), '=', '=']
        = encodeSextet (b / 4) :: encodeSextet (b % 4 * 16 + 1) :: ['=', '='] := rfl
    rw [this]
    rw [show b64encodeBytes g ++ encodeSextet (b / 4) ::
          encodeSextet (b % 4 * 16) :: ['=', '=']
        = (b64encodeBytes g ++ [encodeSextet (b / 4)]) ++
          encodeSextet (b % 4 * 16) :: ['=', '='] by simp]
    rw [show b64encodeBytes g ++ encodeSextet (b / 4) ::
          encodeSextet (b % 4 * 16 + 1) :: ['=', '=']
        = (b64encodeBytes g ++ [encodeSextet (b / 4)]) ++
          encodeSextet (b % 4 * 16 + 1) :: ['=', '='] by simp]
    exact oneCharDiff_of_mid _ _ _ _
      (encodeSextet_ne _ _ (by omega) (by omega) (by omega))
  · rw [htok]
    intro heq
    have := congrArg String.data heq
    simp only at this
    have h1 := List.append_inj_right this (by rfl)
    simp at h1
    have := encodeSextet_ne (b % 4 * 16 + 1) (b % 4 * 16)
      (by omega) (by omega) (by omega)
    exact this h1
  · -- the modified token still decodes to the same blob
    have hdec : b64decodePy (String.mk (b64encodeBytes g ++
        [encodeSextet (b / 4), encodeSextet (b % 4 * 16 + 1), '=', '=']))
        = some (nonce ++ ct) := by
      rw [b64decodePy]
      rw [if_pos ?ascii]
      case ascii =>
        rw [List.all_eq_true]
        intro c hc
        simp only at hc
        rcases List.mem_append.mp hc with h | h
        · exact decide_eq_true (b64encodeBytes_ascii g c h)
        · simp at h
          rcases h with rfl | rfl | rfl
          · exact decide_eq_true (encodeSextet_ascii _)
          · exact decide_eq_true (encodeSextet_ascii _)
          · decide
      show a2b (b64encodeBytes g ++ _) 0 0 0 = _
      rw [a2b_encode_blocks g hgb hg3,
          a2b_tail1 (b / 4) (b % 4 * 16 + 1) (by omega) (by omega)]
      have : b / 4 * 4 + (b % 4 * 16 + 1) / 16 = b := by omega
      rw [this]
      simp [hsplit]
    rw [CryptoManager.decrypt, CryptoManager.decryptRaw, hdec]
    have ht : (nonce ++ ct).take 12 = nonce := by
      rw [← h12]
      exact List.take_left _ _
    have hd : (nonce ++ ct).drop 12 = ct := by
      rw [← h12]
      exact List.drop_left _ _
    simp only [ht, hd, hct, hA.dec_enc nonce [] h12 (by intro v hv; simp at hv)]
    rfl

theorem pyFloat_350 : pyFloat "3.50" = some (7 / 2) := by
  show some ((1 : ℚ) * (((3 : ℕ) : ℚ) + ((50 : ℕ) : ℚ) / 10 ^ (2 : ℕ)) *
      (10 : ℚ) ^ (0 : ℤ)) = some (7 / 2)
  norm_num

theorem pyFloat_1000 : pyFloat "10.00" = some 10 := by
  show some ((1 : ℚ) * (((10 : ℕ) : ℚ) + ((0 : ℕ) : ℚ) / 10 ^ (2 : ℕ)) *
      (10 : ℚ) ^ (0 : ℤ)) = some 10
  norm_num

theorem pyFloat_sentinel : pyFloat CryptoManager.decErrorMsg = none := by decide

/-! ## The claims -/

/-- C1: for every string `s`, decrypting the token produced by encrypting
`s` under the same keyed cipher returns exactly `s`.  Quantified over every
cipher satisfying the fixed-key AES-GCM laws and over the 12 fresh nonce
bytes drawn by `os.urandom(12)`. -/
theorem C1_decrypt_encrypt_roundtrip (A : AEADCipher) (hA : AEADLaws A)
    (nonce : List Nat) (h12 : nonce.length = 12) (hnb : IsBytes nonce)
    (s : String) :
    CryptoManager.decrypt A (CryptoManager.encrypt A nonce s) = s :=
  CryptoManager.decrypt_encrypt A hA nonce h12 hnb s

theorem C1_roundtrip_witness :
    (AEADLaws toyCipher ∧ (List.replicate 12 0 : List Nat).length = 12 ∧
      IsBytes (List.replicate 12 0)) ∧
    CryptoManager.decrypt toyCipher
      (CryptoManager.encrypt toyCipher (List.replicate 12 0) "Milk") = "Milk" :=
  ⟨⟨toyLaws, by decide, by decide⟩,
   C1_decrypt_encrypt_roundtrip toyCipher toyLaws (List.replicate 12 0)
     (by decide) (by decide) "Milk"⟩

/-- C2 counterexample: on a malformed token the `try` body of `decrypt`
fails (`decryptRaw` is `none`), but `decrypt` does not fail with a
`DecryptionError` — no such exception class exists anywhere in the program
— it returns the ordinary string value `"[Decryption Error]"` on the
success channel (the function's `str` return type). -/
theorem C2_counterexample :
    CryptoManager.decryptRaw toyCipher "!!!!" = none ∧
    CryptoManager.decrypt toyCipher "!!!!" = "[Decryption Error]" := by
  decide

/-- C2 amended: on every failing input — (1) malformed base64, (2) decoded
blob too short to hold a 16-byte tag after the 12-byte nonce, (3)
authentication failure in the AEAD, (4) invalid UTF-8 after decryption —
`decrypt` returns the sentinel string `"[Decryption Error]"` instead of
raising; the bare `except Exception` turns every raise from the `try` body
into this return value, so no unrecoverable fault escapes, but the failure
is reported as an in-band string, not as a `DecryptionError`. -/
theorem C2_failures_return_sentinel (A : AEADCipher) (hA : AEADLaws A)
    (token : String) :
    (b64decodePy token = none →
       CryptoManager.decrypt A token = CryptoManager.decErrorMsg) ∧
    (∀ blob, b64decodePy token = some blob → blob.length < 28 →
       CryptoManager.decrypt A token = CryptoManager.decErrorMsg) ∧
    (∀ blob, b64decodePy token = some blob →
       A.decB (blob.take 12) (blob.drop 12) = none →
       CryptoManager.decrypt A token = CryptoManager.decErrorMsg) ∧
    (∀ blob data, b64decodePy token = some blob →
       A.decB (blob.take 12) (blob.drop 12) = some data →
       utf8Decode data = none →
       CryptoManager.decrypt A token = CryptoManager.decErrorMsg) := by
  refine ⟨?_, ?_, ?_, ?_⟩
  · intro hb
    exact CryptoManager.decrypt_of_raw_none A token
      (by simp only [CryptoManager.decryptRaw, hb])
  · intro blob hb hshort
    have hd : A.decB (blob.take 12) (blob.drop 12) = none := by
      apply hA.dec_short
      rw [List.length_drop]
      omega
    exact CryptoManager.decrypt_of_raw_none A token
      (by simp only [CryptoManager.decryptRaw, hb, hd])
  · intro blob hb hd
    exact CryptoManager.decrypt_of_raw_none A token
      (by simp only [CryptoManager.decryptRaw, hb, hd])
  · intro blob data hb hd hu
    exact CryptoManager.decrypt_of_raw_none A token
      (by simp only [CryptoManager.decryptRaw, hb, hd, hu])

theorem C2_failures_witness :
    (AEADLaws toyCipher ∧ b64decodePy "QQQ" = none) ∧
    CryptoManager.decrypt toyCipher "QQQ" = CryptoManager.decErrorMsg :=
  ⟨⟨toyLaws, by decide⟩,
   (C2_failures_return_sentinel toyCipher toyLaws "QQQ").1 (by decide)⟩

/-- C3: the token is the standard base64 encoding of
`nonce(12 bytes) ++ AEAD-ciphertext-with-16-byte-tag`; the decoded token
is `12 + len(utf8(plaintext)) + 16` bytes long and carries the nonce in
its first 12 bytes. -/
theorem C3_token_format (A : AEADCipher) (hA : AEADLaws A)
    (nonce : List Nat) (h12 : nonce.length = 12) (hnb : IsBytes nonce)
    (s : String) :
    CryptoManager.encrypt A nonce s
      = b64encodeStr (nonce ++ A.encB nonce (utf8Encode s)) ∧
    b64decodePy (CryptoManager.encrypt A nonce s)
      = some (nonce ++ A.encB nonce (utf8Encode s)) ∧
    (nonce ++ A.encB nonce (utf8Encode s)).length
      = 12 + (utf8Encode s).length + 16 ∧
    (nonce ++ A.encB nonce (utf8Encode s)).take 12 = nonce := by
  have hblob : IsBytes (nonce ++ A.encB nonce (utf8Encode s)) := by
    intro b hb
    rcases List.mem_append.mp hb with h | h
    · exact hnb b h
    · exact hA.enc_bytes nonce _ hnb (utf8Encode_isBytes s) b h
  refine ⟨rfl, b64decodePy_encode _ hblob, ?_, ?_⟩
  · rw [List.length_append, h12, hA.enc_len nonce _ h12]
    omega
  · rw [← h12]
    exact List.take_left _ _

theorem C3_token_format_witness :
    (AEADLaws toyCipher ∧ (List.replicate 12 0 : List Nat).length = 12 ∧
      IsBytes (List.replicate 12 0)) ∧
    (CryptoManager.encrypt toyCipher (List.replicate 12 0) "Milk"
       = b64encodeStr (List.replicate 12 0 ++
           toyCipher.encB (List.replicate 12 0) (utf8Encode "Milk")) ∧
     b64decodePy (CryptoManager.encrypt toyCipher (List.replicate 12 0) "Milk")
       = some (List.replicate 12 0 ++
           toyCipher.encB (List.replicate 12 0) (utf8Encode "Milk")) ∧
     (List.replicate 12 0 ++
        toyCipher.encB (List.replicate 12 0) (utf8Encode "Milk")).length
       = 12 + (utf8Encode "Milk").length + 16 ∧
     (List.replicate 12 0 ++
        toyCipher.encB (List.replicate 12 0) (utf8Encode "Milk")).take 12
       = List.replicate 12 0) :=
  ⟨⟨toyLaws, by decide, by decide⟩,
   C3_token_format toyCipher toyLaws (List.replicate 12 0)
     (by decide) (by decide) "Milk"⟩

/-- C4 counterexample: a valid token of the empty plaintext under an
all-zero nonce is the 40-character string below; changing its 38th
character (index 37) from `'A'` to `'B'` is a single-byte modification,
yet `decrypt` does not fail with any error — the modified token decodes
to the identical byte blob, because Python's base64 decoder ignores the
unused trailing bits of the final quad, so decryption succeeds and
returns the original plaintext. -/
theorem C4_counterexample :
    CryptoManager.encrypt toyCipher (List.replicate 12 0) ""
      = "AAAAAAAAAAAAAAAAAAAAAAAAAAAAAAAAAAAAAA==" ∧
    oneCharDiff "AAAAAAAAAAAAAAAAAAAAAAAAAAAAAAAAAAAAAA=="
      "AAAAAAAAAAAAAAAAAAAAAAAAAAAAAAAAAAAAAB==" ∧
    CryptoManager.decrypt toyCipher
      "AAAAAAAAAAAAAAAAAAAAAAAAAAAAAAAAAAAAAB=="
      ≠ CryptoManager.decErrorMsg ∧
    CryptoManager.decrypt toyCipher
      "AAAAAAAAAAAAAAAAAAAAAAAAAAAAAAAAAAAAAB==" = "" := by
  decide

/-- C4 amended: flipping a single byte of a valid token does not always
make `decrypt` fail.  First conjunct: for every one-character
modification `t'` of a valid token, `decrypt` never raises — it returns
the original plaintext (when the modification does not change the decoded
blob), or the sentinel string `"[Decryption Error]"` (no `DecryptionError`
class exists), or — only in case the AEAD itself authenticates the
modified blob, i.e. the blob after byte 12 is literally an encryption
under the presented nonce — that blob's plaintext.  Second conjunct: a
successful one-character modification exists (unused trailing base64
bits), so tamper detection as claimed fails. -/
theorem C4_tamper_detection_amended (A : AEADCipher) (hA : AEADLaws A)
    (nonce : List Nat) (h12 : nonce.length = 12) (hnb : IsBytes nonce) :
    (∀ s t', oneCharDiff (CryptoManager.encrypt A nonce s) t' →
       CryptoManager.decrypt A t' = s ∨
       CryptoManager.decrypt A t' = CryptoManager.decErrorMsg ∨
       (∃ blob data, b64decodePy t' = some blob ∧
          (blob.take 12).length = 12 ∧
          blob.drop 12 = A.encB (blob.take 12) data ∧
          CryptoManager.decrypt A t'
            = (utf8Decode data).getD CryptoManager.decErrorMsg)) ∧
    (∃ t', oneCharDiff (CryptoManager.encrypt A nonce "") t' ∧
       t' ≠ CryptoManager.encrypt A nonce "" ∧
       CryptoManager.decrypt A t' = "") := by
  constructor
  · intro s t' hdiff
    cases hb : b64decodePy t' with
    | none =>
      right; left
      exact CryptoManager.decrypt_of_raw_none A t'
        (by simp only [CryptoManager.decryptRaw, hb])
    | some blob =>
      cases hd : A.decB (blob.take 12) (blob.drop 12) with
      | none =>
        right; left
        exact CryptoManager.decrypt_of_raw_none A t'
          (by simp only [CryptoManager.decryptRaw, hb, hd])
      | some data =>
        right; right
        have hlen12 : (blob.take 12).length = 12 := by
          by_contra hc
          have hlt : blob.length < 12 := by
            have := List.length_take 12 blob
            omega
          have hshort : (blob.drop 12).length < 16 := by
            rw [List.length_drop]
            omega
          rw [hA.dec_short _ _ hshort] at hd
          exact Option.noConfusion hd
        refine ⟨blob, data, rfl, hlen12, hA.dec_sound _ _ _ hlen12 hd, ?_⟩
        have hraw : CryptoManager.decryptRaw A t' = utf8Decode data := by
          simp only [CryptoManager.decryptRaw, hb, hd]
        rw [CryptoManager.decrypt, hraw]
  · exact flip_still_decrypts A hA nonce h12 hnb

theorem C4_amended_witness :
    (AEADLaws toyCipher ∧ (List.replicate 12 0 : List Nat).length = 12 ∧
      IsBytes (List.replicate 12 0)) ∧
    ((∀ s t',
       oneCharDiff (CryptoManager.encrypt toyCipher (List.replicate 12 0) s) t' →
       CryptoManager.decrypt toyCipher t' = s ∨
       CryptoManager.decrypt toyCipher t' = CryptoManager.decErrorMsg ∨
       (∃ blob data, b64decodePy t' = some blob ∧
          (blob.take 12).length = 12 ∧
          blob.drop 12 = toyCipher.encB (blob.take 12) data ∧
          CryptoManager.decrypt toyCipher t'
            = (utf8Decode data).getD CryptoManager.decErrorMsg)) ∧
     (∃ t',
       oneCharDiff (CryptoManager.encrypt toyCipher (List.replicate 12 0) "") t' ∧
       t' ≠ CryptoManager.encrypt toyCipher (List.replicate 12 0) "" ∧
       CryptoManager.decrypt toyCipher t' = "")) :=
  ⟨⟨toyLaws, by decide, by decide⟩,
   C4_tamper_detection_amended toyCipher toyLaws (List.replicate 12 0)
     (by decide) (by decide)⟩

/-- C5: two `encrypt` calls whose fresh 96-bit nonces differ produce
different tokens for the same plaintext — the decoded blobs differ in
their 12-byte nonce prefix, and base64 encoding is injective. -/
theorem C5_distinct_nonces_distinct_tokens (A : AEADCipher) (hA : AEADLaws A)
    (n1 n2 : List Nat) (h1 : n1.length = 12) (h2 : n2.length = 12)
    (hb1 : IsBytes n1) (hb2 : IsBytes n2) (hne : n1 ≠ n2) (s : String) :
    CryptoManager.encrypt A n1 s ≠ CryptoManager.encrypt A n2 s := by
  intro heq
  have hblob1 : IsBytes (n1 ++ A.encB n1 (utf8Encode s)) := by
    intro b hb
    rcases List.mem_append.mp hb with h | h
    · exact hb1 b h
    · exact hA.enc_bytes n1 _ hb1 (utf8Encode_isBytes s) b h
  have hblob2 : IsBytes (n2 ++ A.encB n2 (utf8Encode s)) := by
    intro b hb
    rcases List.mem_append.mp hb with h | h
    · exact hb2 b h
    · exact hA.enc_bytes n2 _ hb2 (utf8Encode_isBytes s) b h
  have d1 : b64decodePy (CryptoManager.encrypt A n1 s)
      = some (n1 ++ A.encB n1 (utf8Encode s)) := b64decodePy_encode _ hblob1
  have d2 : b64decodePy (CryptoManager.encrypt A n2 s)
      = some (n2 ++ A.encB n2 (utf8Encode s)) := b64decodePy_encode _ hblob2
  rw [heq, d2] at d1
  have hlists := Option.some.inj d1
  have ht1 : (n2 ++ A.encB n2 (utf8Encode s)).take 12 = n2 := by
    rw [← h2]
    exact List.take_left _ _
  have ht2 : (n1 ++ A.encB n1 (utf8Encode s)).take 12 = n1 := by
    rw [← h1]
    exact List.take_left _ _
  rw [hlists, ht2] at ht1
  exact hne ht1

theorem C5_distinct_nonces_witness :
    (AEADLaws toyCipher ∧ (List.replicate 12 0 : List Nat).length = 12 ∧
      (List.replicate 12 1 : List Nat).length = 12 ∧
      IsBytes (List.replicate 12 0) ∧ IsBytes (List.replicate 12 1) ∧
      (List.replicate 12 0 : List Nat) ≠ List.replicate 12 1) ∧
    CryptoManager.encrypt toyCipher (List.replicate 12 0) "Milk"
      ≠ CryptoManager.encrypt toyCipher (List.replicate 12 1) "Milk" :=
  ⟨⟨toyLaws, by decide, by decide, by decide, by decide, by decide⟩,
   C5_distinct_nonces_distinct_tokens toyCipher toyLaws
     (List.replicate 12 0) (List.replicate 12 1)
     (by decide) (by decide) (by decide) (by decide) (by decide) "Milk"⟩

/-- C6: key loading is stable and write-once (on a healthy file system):
an existing persisted secret is returned unmodified with the file-system
state untouched; with no persisted secret, the freshly generated 256-bit
secret (the 32 bytes drawn by `AESGCM.generate_key(bit_length=256)`) is
persisted before the call returns; and any two sequential calls return
the same secret. -/
theorem C6_key_persistence (fs : KeyFS) (r1 r2 : List Nat)
    (hread : fs.readOk = true) (hwrite : fs.writeOk = true)
    (h32 : r1.length = 32) :
    (∀ k, fs.keyFile = some k →
       loadOrGenerateKey fs r1 = Except.ok (k, fs)) ∧
    (fs.keyFile = none →
       loadOrGenerateKey fs r1
         = Except.ok (r1, { fs with keyFile := some r1 }) ∧ r1.length = 32) ∧
    (∀ k1 fs1, loadOrGenerateKey fs r1 = Except.ok (k1, fs1) →
       loadOrGenerateKey fs1 r2 = Except.ok (k1, fs1)) := by
  refine ⟨?_, ?_, ?_⟩
  · intro k hk
    rw [loadOrGenerateKey, hk]
    simp only [hread, if_true]
  · intro hk
    rw [loadOrGenerateKey, hk]
    simp only [hwrite, if_true]
    exact ⟨trivial, h32⟩
  · intro k1 fs1 hcall
    rw [loadOrGenerateKey] at hcall
    cases hk : fs.keyFile with
    | some k =>
      rw [hk] at hcall
      simp only [hread, if_true] at hcall
      injection hcall with h'
      injection h' with e1 e2
      rw [loadOrGenerateKey, ← e2, hk]
      simp only [hread, if_true, e1]
    | none =>
      rw [hk] at hcall
      simp only [hwrite, if_true] at hcall
      injection hcall with h'
      injection h' with e1 e2
      rw [loadOrGenerateKey, ← e2]
      simp only [hread, if_true, e1]

theorem C6_key_persistence_witness :
    ((KeyFS.mk none true true).readOk = true ∧
     (KeyFS.mk none true true).writeOk = true ∧
     (List.replicate 32 7 : List Nat).length = 32) ∧
    ((∀ k, (KeyFS.mk none true true).keyFile = some k →
       loadOrGenerateKey (KeyFS.mk none true true) (List.replicate 32 7)
         = Except.ok (k, KeyFS.mk none true true)) ∧
     ((KeyFS.mk none true true).keyFile = none →
       loadOrGenerateKey (KeyFS.mk none true true) (List.replicate 32 7)
         = Except.ok (List.replicate 32 7,
             { KeyFS.mk none true true with keyFile := some (List.replicate 32 7) }) ∧
       (List.replicate 32 7 : List Nat).length = 32) ∧
     (∀ k1 fs1,
       loadOrGenerateKey (KeyFS.mk none true true) (List.replicate 32 7)
         = Except.ok (k1, fs1) →
       loadOrGenerateKey fs1 (List.replicate 32 9) = Except.ok (k1, fs1))) :=
  ⟨⟨rfl, rfl, by decide⟩,
   C6_key_persistence (KeyFS.mk none true true)
     (List.replicate 32 7) (List.replicate 32 9) rfl rfl (by decide)⟩

/-- C7 counterexample: with a persisted secret of the wrong length (5
bytes, not 256 bits), `_load_or_generate_key` does not fail at all — it
returns the corrupt secret as a success — refuting the claim that key
loading fails with `KeyIOError` rather than returning a secret.  (No
`KeyIOError` class exists anywhere in the program.) -/
theorem C7_counterexample :
    loadOrGenerateKey (KeyFS.mk (some [1, 2, 3, 4, 5]) true true)
      (List.replicate 32 0)
      = Except.ok ([1, 2, 3, 4, 5], KeyFS.mk (some [1, 2, 3, 4, 5]) true true) := rfl

/-- C7 amended: `_load_or_generate_key` itself performs no validation and
returns whatever bytes are stored; a wrong-length persisted key makes the
subsequent `AESGCM(self.key)` constructor in `__init__` raise the
library's `ValueError` (not a `KeyIOError`, which does not exist in the
program); an unreadable persisted secret or an unwritable fresh secret
surfaces as an uncaught `OSError` from the file operations. -/
theorem C7_key_errors_amended (fs : KeyFS) (r : List Nat) :
    (∀ k, fs.keyFile = some k → fs.readOk = true →
       ¬(k.length = 16 ∨ k.length = 24 ∨ k.length = 32) →
       loadOrGenerateKey fs r = Except.ok (k, fs) ∧
       cryptoManagerInit fs r = Except.error PyErr.valueError) ∧
    (∀ k, fs.keyFile = some k → fs.readOk = false →
       cryptoManagerInit fs r = Except.error PyErr.osError) ∧
    (fs.keyFile = none → fs.writeOk = false →
       cryptoManagerInit fs r = Except.error PyErr.osError) := by
  refine ⟨?_, ?_, ?_⟩
  · intro k hk hr hbad
    have hload : loadOrGenerateKey fs r = Except.ok (k, fs) := by
      rw [loadOrGenerateKey, hk]
      simp only [hr, if_true]
    refine ⟨hload, ?_⟩
    rw [cryptoManagerInit, hload]
    simp only [if_neg hbad]
  · intro k hk hr
    have hload : loadOrGenerateKey fs r = Except.error PyErr.osError := by
      rw [loadOrGenerateKey, hk]
      simp [hr]
    rw [cryptoManagerInit, hload]
  · intro hk hw
    have hload : loadOrGenerateKey fs r = Except.error PyErr.osError := by
      rw [loadOrGenerateKey, hk]
      simp [hw]
    rw [cryptoManagerInit, hload]

theorem C7_key_errors_witness :
    ((KeyFS.mk (some [1, 2, 3, 4, 5]) true true).keyFile = some [1, 2, 3, 4, 5] ∧
     (KeyFS.mk (some [1, 2, 3, 4, 5]) true true).readOk = true ∧
     ¬(([1, 2, 3, 4, 5] : List Nat).length = 16 ∨
       ([1, 2, 3, 4, 5] : List Nat).length = 24 ∨
       ([1, 2, 3, 4, 5] : List Nat).length = 32)) ∧
    (loadOrGenerateKey (KeyFS.mk (some [1, 2, 3, 4, 5]) true true)
       (List.replicate 32 0)
       = Except.ok ([1, 2, 3, 4, 5], KeyFS.mk (some [1, 2, 3, 4, 5]) true true) ∧
     cryptoManagerInit (KeyFS.mk (some [1, 2, 3, 4, 5]) true true)
       (List.replicate 32 0)
       = Except.error PyErr.valueError) :=
  ⟨⟨rfl, rfl, by decide⟩,
   (C7_key_errors_amended (KeyFS.mk (some [1, 2, 3, 4, 5]) true true)
      (List.replicate 32 0)).1 [1, 2, 3, 4, 5] rfl rfl (by decide)⟩

/-- C8 counterexample: two stored items; exactly one stored token is
corrupted — the DESCRIPTION token of item 1 (`"!!!!"` fails to decrypt).
The listing does not crash and shows the sentinel in that row's
description, but the row still parses its intact amount (3.50), so the
computed total is 13.5: it does NOT exclude the corrupted row's amount
(which exclusion would give 10). -/
theorem C8_counterexample :
    CryptoManager.decryptRaw toyCipher "!!!!" = none ∧
    listItems toyCipher
      [(1, "!!!!", CryptoManager.encrypt toyCipher (List.replicate 12 0) "3.50"),
       (2, CryptoManager.encrypt toyCipher (List.replicate 12 1) "Rent",
           CryptoManager.encrypt toyCipher (List.replicate 12 2) "10.00")]
      = ([RowOut.display 1 "[Decryption Error]" (7 / 2),
          RowOut.display 2 "Rent" 10], 7 / 2 + (10 + 0)) ∧
    ((7 : ℚ) / 2 + (10 + 0) ≠ 10) := by
  refine ⟨by decide, ?_, by norm_num⟩
  have hd1 : CryptoManager.decrypt toyCipher "!!!!" = "[Decryption Error]" := by
    decide
  have hd2 : CryptoManager.decrypt toyCipher
      (CryptoManager.encrypt toyCipher (List.replicate 12 0) "3.50")
      = "3.50" := by decide
  have hd3 : CryptoManager.decrypt toyCipher
      (CryptoManager.encrypt toyCipher (List.replicate 12 1) "Rent")
      = "Rent" := by decide
  have hd4 : CryptoManager.decrypt toyCipher
      (CryptoManager.encrypt toyCipher (List.replicate 12 2) "10.00")
      = "10.00" := by decide
  simp only [listItems, renderItem, hd1, hd2, hd3, hd4, pyFloat_350,
             pyFloat_1000]

/-- C8 amended: when exactly one stored AMOUNT token is corrupted (its
`try` body fails, so `decrypt` yields the sentinel, which `float` cannot
parse), the listing shows the `Error` marker for that row only, renders
every other row exactly as it would alone, does not crash, and its total
is the sum of the other rows' parsed amounts — the corrupted row
contributes nothing.  (A corrupted DESCRIPTION token instead leaves the
row's amount in the total, as the counterexample shows.) -/
theorem C8_listing_isolation_amended (A : AEADCipher)
    (pre post : List (Nat × String × String)) (idj : Nat)
    (descTok badTok : String)
    (hbad : CryptoManager.decryptRaw A badTok = none) :
    listItems A (pre ++ (idj, descTok, badTok) :: post)
      = ((listItems A pre).1 ++
          RowOut.errorRow idj (CryptoManager.decrypt A descTok) ::
            (listItems A post).1,
         (listItems A pre).2 + (listItems A post).2) := by
  have hdec : CryptoManager.decrypt A badTok = CryptoManager.decErrorMsg :=
    CryptoManager.decrypt_of_raw_none A badTok hbad
  have hrender : renderItem A (idj, descTok, badTok)
      = (RowOut.errorRow idj (CryptoManager.decrypt A descTok), 0) := by
    rw [renderItem]
    simp only [hdec, pyFloat_sentinel]
  rw [listItems_append, listItems_cons, hrender]
  simp only [zero_add]

theorem C8_listing_isolation_witness :
    CryptoManager.decryptRaw toyCipher "!!!!" = none ∧
    listItems toyCipher
      ([] ++ (1, CryptoManager.encrypt toyCipher (List.replicate 12 0) "Milk",
              "!!!!") ::
        [(2, CryptoManager.encrypt toyCipher (List.replicate 12 1) "Rent",
             CryptoManager.encrypt toyCipher (List.replicate 12 2) "10.00")])
      = ((listItems toyCipher []).1 ++
          RowOut.errorRow 1
            (CryptoManager.decrypt toyCipher
              (CryptoManager.encrypt toyCipher (List.replicate 12 0) "Milk")) ::
            (listItems toyCipher
              [(2, CryptoManager.encrypt toyCipher (List.replicate 12 1) "Rent",
                   CryptoManager.encrypt toyCipher
                     (List.replicate 12 2) "10.00")]).1,
         (listItems toyCipher []).2 +
           (listItems toyCipher
             [(2, CryptoManager.encrypt toyCipher (List.replicate 12 1) "Rent",
                  CryptoManager.encrypt toyCipher
                    (List.replicate 12 2) "10.00")]).2) :=
  ⟨by decide,
   C8_listing_isolation_amended toyCipher []
     [(2, CryptoManager.encrypt toyCipher (List.replicate 12 1) "Rent",
          CryptoManager.encrypt toyCipher (List.replicate 12 2) "10.00")]
     1 (CryptoManager.encrypt toyCipher (List.replicate 12 0) "Milk") "!!!!"
     (by decide)⟩

/-- C9: `decrypt` is total — for every input string whatsoever it returns
a string: either the `try` body succeeds and its result is returned, or
the bare `except Exception` catches the raise and the sentinel
`"[Decryption Error]"` is returned; no exception propagates. -/
theorem C9_decrypt_total (A : AEADCipher) (token : String) :
    CryptoManager.decrypt A token = CryptoManager.decErrorMsg ∨
    ∃ s, CryptoManager.decryptRaw A token = some s ∧
         CryptoManager.decrypt A token = s := by
  cases h : CryptoManager.decryptRaw A token with
  | none => exact Or.inl (CryptoManager.decrypt_of_raw_none A token h)
  | some s =>
    refine Or.inr ⟨s, rfl, ?_⟩
    rw [CryptoManager.decrypt, h]
    rfl

/-- C10: the failure value collides with the success channel — decrypting
the valid encryption of the plaintext `"[Decryption Error]"` returns
exactly the same string that `decrypt` returns for every invalid or
tampered token, so the caller cannot tell that successful decryption
apart from a failure by looking at the returned value. -/
theorem C10_sentinel_collision (A : AEADCipher) (hA : AEADLaws A)
    (nonce : List Nat) (h12 : nonce.length = 12) (hnb : IsBytes nonce) :
    CryptoManager.decrypt A
      (CryptoManager.encrypt A nonce "[Decryption Error]")
      = "[Decryption Error]" ∧
    (∀ t, CryptoManager.decryptRaw A t = none →
       CryptoManager.decrypt A t = "[Decryption Error]") := by
  constructor
  · exact CryptoManager.decrypt_encrypt A hA nonce h12 hnb _
  · intro t ht
    exact CryptoManager.decrypt_of_raw_none A t ht

theorem C10_sentinel_collision_witness :
    (AEADLaws toyCipher ∧ (List.replicate 12 0 : List Nat).length = 12 ∧
      IsBytes (List.replicate 12 0)) ∧
    (CryptoManager.decrypt toyCipher
       (CryptoManager.encrypt toyCipher (List.replicate 12 0)
         "[Decryption Error]")
       = "[Decryption Error]" ∧
     (∀ t, CryptoManager.decryptRaw toyCipher t = none →
        CryptoManager.decrypt toyCipher t = "[Decryption Error]")) :=
  ⟨⟨toyLaws, by decide, by decide⟩,
   C10_sentinel_collision toyCipher toyLaws (List.replicate 12 0)
     (by decide) (by decide)⟩
